import Mathlib

/-!
# GoPangu `diskdb`: an append-only log with an in-memory index

A shallow embedding of `src/diskdb.go` (`Open`, `loadIndexesFromFile`, `Put`,
`Get`, `Del`) together with a model of the record and log-file layer
(`Entry`, `DBFile`), which the store calls but whose source is not part of
`src/`; that layer is modelled from the specification.

Conventions.
* A Go `[]byte` is a `List UInt8`; the nil slice and the empty slice are both
  `[]` (Go code can only tell them apart with `== nil`, which the store never
  does on a value it returns).
* `map[string]int64` is a function `Bytes → Option Nat` (`string(key)` is
  injective on byte slices). Offsets start at `0` and only grow by record
  sizes, so they are natural numbers.
* A Go result `(x, err)` with `err == nil` is `(x, none)`.
* `sync.RWMutex` is not modelled: every operation is one atomic step.
* `hdr` is the number of bytes of a record header; the specification does not
  fix it, so every definition that needs a size takes it as a parameter.
-/

namespace diskdb

/-- A Go byte slice. -/
abbrev Bytes := List UInt8

/-- Error values the store can observe. `EOF` is `io.EOF`; `ErrNotExist` and
`ErrExist` are the `os` sentinel errors; `ErrDecode` is the decode error of a
record that does not parse; `ErrOther` stands for any other I/O failure
(disk full, permission lost), told apart by a code. -/
inductive Error where
  | EOF
  | ErrNotExist
  | ErrExist
  | ErrDecode
  | ErrOther (code : Nat)
  deriving DecidableEq, Repr

/-- Modelled from the spec: the mark of a record (constants `PUT` and `DEL`,
declared outside `src/`): section 3, "enumerated {Put, Delete}". -/
inductive Mark where
  | PUT
  | DEL
  deriving DecidableEq, Repr

/-- Modelled from the spec: the record type `Entry` (declared outside `src/`):
section 3, a key, a value and a mark. -/
structure Entry where
  Key : Bytes
  Value : Bytes
  Mark : Mark
  deriving DecidableEq, Repr

/-- Modelled from the spec: the constructor `NewEntry` (defined outside
`src/`): a record made of the given key, value and mark. -/
def NewEntry (key value : Bytes) (mark : Mark) : Entry :=
  { Key := key, Value := value, Mark := mark }

/-- Modelled from the spec: `Entry.GetSize` (defined outside `src/`): the
"total byte length of the record once serialized": a header followed by the
raw key bytes and the raw value bytes (section 4.1). -/
def Entry.GetSize (hdr : Nat) (e : Entry) : Nat :=
  hdr + e.Key.length + e.Value.length

/-- A stretch of the log file: the encoding of one record, or `len` bytes that
do not parse as a record (corruption). -/
inductive Block where
  | entry (e : Entry)
  | junk (len : Nat)
  deriving DecidableEq, Repr

/-- Number of bytes a block occupies in the file. -/
def Block.size (hdr : Nat) : Block → Nat
  | .entry e => e.GetSize hdr
  | .junk len => len

/-- Byte length of a sequence of blocks. -/
def logSize (hdr : Nat) : List Block → Nat
  | [] => 0
  | b :: bs => b.size hdr + logSize hdr bs

/-- Modelled from the spec: the type `DBFile` (declared outside `src/`), the
append log of section 4.2. `blocks` is the content of the file in file order.
`faults` is the environment: the outcomes of the coming appends, in order
(`some err`: the append fails with `err`; `none` or no item: it succeeds). -/
structure DBFile where
  blocks : List Block
  faults : List (Option Error)

/-- Modelled from the spec: the field `DBFile.Offset` (declared outside
`src/`): section 3, the write offset is "always equal to the file's current
length". -/
def DBFile.Offset (hdr : Nat) (f : DBFile) : Nat :=
  logSize hdr f.blocks

/-- Outcome of `DBFile.Read`: Go's `(e, err)`. `ok e` is `(e, nil)`; `fail e err`
is a non-nil error, with the entry pointer that comes with it (possibly nil). -/
inductive ReadResult where
  | ok (e : Entry)
  | fail (e : Option Entry) (err : Error)
  deriving DecidableEq, Repr

/-- What decoding at the first byte of a block gives. -/
def Block.parse : Block → ReadResult
  | .entry e => .ok e
  | .junk _ => .fail none .ErrDecode

/-- Positional read in a sequence of blocks, `off` counted from its start:
end-of-data at or beyond the end, the record when `off` is the first byte of a
record, a decode error anywhere else. -/
def readAt (hdr : Nat) : List Block → Nat → ReadResult
  | [], _ => .fail none .EOF
  | b :: bs, off =>
    if off < b.size hdr then
      if off = 0 then b.parse else .fail none .ErrDecode
    else readAt hdr bs (off - b.size hdr)

/-- Modelled from the spec: `DBFile.Read` (defined outside `src/`), the
`read_at` of section 4.2: "decodes exactly one record"; "fails with an
end-of-data signal when `offset` is at or beyond the current file length";
"fails with a decode error if the bytes at `offset` do not parse as a valid
record". -/
def DBFile.Read (hdr : Nat) (f : DBFile) (offset : Nat) : ReadResult :=
  readAt hdr f.blocks offset

/-- Modelled from the spec: `DBFile.Write` (defined outside `src/`), the
`append` of section 4.2: "writes it at the current end of file, advances
`write_offset` by `encoded_size`". A failed append leaves the file as it was
("the append itself did not complete") and returns the error. -/
def DBFile.Write (f : DBFile) (e : Entry) : DBFile × Option Error :=
  match f.faults with
  | some err :: rest => ({ f with faults := rest }, some err)
  | none :: rest => ({ blocks := f.blocks ++ [.entry e], faults := rest }, none)
  | [] => ({ blocks := f.blocks ++ [.entry e], faults := [] }, none)

/-- The in-memory index `map[string]int64`. -/
abbrev Index := Bytes → Option Nat

/-- The map `make(map[string]int64)`. -/
def Index.empty : Index := fun _ => none

/-- The assignment `m[k] = off`. -/
def Index.set (m : Index) (k : Bytes) (off : Nat) : Index :=
  fun q => if q = k then some off else m q

/-- The statement `delete(m, k)`. -/
def Index.delete (m : Index) (k : Bytes) : Index :=
  fun q => if q = k then none else m q

/-- The struct `DiskDB`. `dbFile` is a non-nil pointer in every store that
`Open` builds, the only constructor; `mu` is not modelled. -/
structure DiskDB where
  indexes : Index
  dbFile : DBFile
  dirPath : String

/-- The loop of `loadIndexesFromFile` (`for { ... }`, lines 45-64), one
iteration per unit of `fuel`; `none` when the fuel runs out before the loop
ends. A failed read ends the loop, whether by `break` (end-of-data) or by
`return` (any other error): the function has no result either way. -/
def scan (hdr : Nat) (f : DBFile) : Nat → Nat → Index → Option Index
  | 0, _, _ => none
  | fuel + 1, offset, indexes =>
    match f.Read hdr offset with
    | .fail _ err => if err = .EOF then some indexes else some indexes
    | .ok e =>
      let indexes := indexes.set e.Key offset
      let indexes := if e.Mark = .DEL then indexes.delete e.Key else indexes
      scan hdr f fuel (offset + e.GetSize hdr) indexes

/-- The method `loadIndexesFromFile` (lines 39-66): scans the log from offset 0
and updates `db.indexes` in place. The guard `db.dbFile == nil` never fires on
a store built by `Open`. -/
def loadIndexesFromFile (hdr fuel : Nat) (db : DiskDB) : Option DiskDB :=
  (scan hdr db.dbFile fuel 0 db.indexes).map fun m => { db with indexes := m }

/-- The method `Put` (lines 68-84). The index is assigned after the write
whatever the write returned. -/
def Put (hdr : Nat) (db : DiskDB) (key value : Bytes) : DiskDB × Option Error :=
  if key.length = 0 then (db, none)
  else
    let offset := db.dbFile.Offset hdr
    let entry := NewEntry key value .PUT
    let (file, err) := db.dbFile.Write entry
    ({ db with dbFile := file, indexes := db.indexes.set key offset }, err)

/-- The method `Get` (lines 86-110); it does not change the store. -/
def Get (hdr : Nat) (db : DiskDB) (key : Bytes) : Bytes × Option Error :=
  if key.length = 0 then ([], none)
  else
    match db.indexes key with
    | none => ([], none)
    | some offset =>
      match db.dbFile.Read hdr offset with
      | .ok e => (e.Value, none)
      | .fail e err =>
        if err ≠ .EOF then ([], some err)
        else
          match e with
          | some e => (e.Value, some err)
          | none => ([], some err)

/-- The method `Del` (lines 113-137). -/
def Del (db : DiskDB) (key : Bytes) : DiskDB × Option Error :=
  if key.length = 0 then (db, none)
  else
    match db.indexes key with
    | none => (db, none)
    | some _ =>
      let e := NewEntry key [] .DEL
      let (file, err) := db.dbFile.Write e
      if err ≠ none then ({ db with dbFile := file }, err)
      else ({ db with dbFile := file, indexes := db.indexes.delete key }, err)

/-- The part of the file system `Open` touches: which directories exist, which
missing ones can be created, the content of the log file of a directory when
that file exists, and the outcomes of the appends that follow the opening. -/
structure Disk where
  isDir : String → Bool
  creatable : String → Bool
  file : String → Option (List Block)
  faults : List (Option Error)

/-- Go's `os.Stat`, keeping only its error: nil for a path that exists,
`ErrNotExist` for one that does not. -/
def os.Stat (d : Disk) (path : String) : Option Error :=
  if d.isDir path then none else some .ErrNotExist

/-- Go's `os.IsExist`: true on the error "already exists", false on nil and on
every other error. -/
def os.IsExist (err : Option Error) : Bool :=
  err = some .ErrExist

/-- Go's `os.MkdirAll`: nothing to do for a directory that exists; creates a
missing one, or fails. -/
def os.MkdirAll (d : Disk) (path : String) : Disk × Option Error :=
  if d.isDir path then (d, none)
  else if d.creatable path then
    ({ d with isDir := fun q => if q = path then true else d.isDir q }, none)
  else (d, some (.ErrOther 13))

/-- Modelled from the spec: `NewDBFile` (defined outside `src/`), the
`open_or_create` of section 4.2: "opens the file if present, creates it if
absent; fails with an I/O error kind if the path is unusable (e.g. ... parent
directory missing ...)". Go's `(dbFile, err)` is `.ok dbFile` or `.error err`. -/
def NewDBFile (d : Disk) (dirPath : String) : Disk × Except Error DBFile :=
  if d.isDir dirPath then
    match d.file dirPath with
    | some blocks => (d, .ok { blocks := blocks, faults := d.faults })
    | none =>
      ({ d with file := fun q => if q = dirPath then some [] else d.file q },
        .ok { blocks := [], faults := d.faults })
  else (d, .error .ErrNotExist)

/-- The function `Open` (lines 16-36), with the file system threaded through.
The outer `Option` is `none` only when the recovery loop runs out of `fuel`.
The call of `loadIndexesFromFile` has no result to inspect. -/
def Open (hdr fuel : Nat) (d : Disk) (dirPath : String) :
    Option ((Option DiskDB × Option Error) × Disk) :=
  let step1 : Disk × Option Error :=
    if os.IsExist (os.Stat d dirPath) then os.MkdirAll d dirPath else (d, none)
  match step1 with
  | (d1, some err) => some ((none, some err), d1)
  | (d1, none) =>
    match NewDBFile d1 dirPath with
    | (d2, .error err) => some ((none, some err), d2)
    | (d2, .ok dbFile) =>
      let db : DiskDB := { dbFile := dbFile, indexes := Index.empty, dirPath := dirPath }
      match loadIndexesFromFile hdr fuel db with
      | none => none
      | some db => some ((some db, none), d2)

/-! ### Vocabulary of the properties -/

/-- A block that is the encoding of a record and occupies at least one byte. -/
def Block.valid (hdr : Nat) : Block → Bool
  | .entry e => decide (0 < e.GetSize hdr)
  | .junk _ => false

/-- A well-formed log: a sequence of encoded records, nothing else. -/
def WellFormed (hdr : Nat) (blocks : List Block) : Prop :=
  ∀ b ∈ blocks, b.valid hdr = true

instance (hdr : Nat) (blocks : List Block) : Decidable (WellFormed hdr blocks) :=
  inferInstanceAs (Decidable (∀ b ∈ blocks, b.valid hdr = true))

/-- A call of a mutating method of the store. -/
inductive Op where
  | put (key value : Bytes)
  | del (key : Bytes)
  deriving DecidableEq, Repr

/-- Performs one call. -/
def Op.run (hdr : Nat) (db : DiskDB) : Op → DiskDB × Option Error
  | .put key value => Put hdr db key value
  | .del key => Del db key

/-- Performs the calls in order; `none` as soon as one of them returns an
error. -/
def runOps (hdr : Nat) : DiskDB → List Op → Option DiskDB
  | db, [] => some db
  | db, op :: ops =>
    match op.run hdr db with
    | (db1, none) => runOps hdr db1 ops
    | (_, some _) => none

/-- The effect on the index of one record read at `offset` by the recovery
loop (lines 56-61). -/
def applyEntry (m : Index) (e : Entry) (offset : Nat) : Index :=
  if e.Mark = .DEL then (m.set e.Key offset).delete e.Key else m.set e.Key offset

/-- File-order replay of a sequence of blocks whose first byte is at `offset`:
records update the index in turn, up to the first block that is not a
record. -/
def replay (hdr : Nat) : List Block → Nat → Index → Index
  | [], _, m => m
  | .entry e :: bs, offset, m => replay hdr bs (offset + e.GetSize hdr) (applyEntry m e offset)
  | .junk _ :: _, _, m => m

/-- The store `Open` returns on an empty directory `"d"`, with the given
outcomes of the coming appends. -/
def freshStore (faults : List (Option Error)) : DiskDB :=
  { indexes := Index.empty, dbFile := { blocks := [], faults := faults }, dirPath := "d" }

/-- The store after a successful `Put` of key `a` and value `1` on the fresh
store (with a 10-byte header). -/
def oneKeyStore (faults : List (Option Error)) : DiskDB :=
  { indexes := Index.empty.set [97] 0,
    dbFile := { blocks := [.entry (NewEntry [97] [49] .PUT)], faults := faults },
    dirPath := "d" }

/-- The log `Put(a,1)`, `Put(b,2)`, `Del(a)`, `Put(a,3)` of the example scenario
of section 8. -/
def exampleLog : List Block :=
  [.entry (NewEntry [97] [49] .PUT), .entry (NewEntry [98] [50] .PUT),
   .entry (NewEntry [97] [] .DEL), .entry (NewEntry [97] [51] .PUT)]

/-- The calls of the example scenario of section 8. -/
def exampleOps : List Op :=
  [.put [97] [49], .put [98] [50], .del [97], .put [97] [51]]

/-- A directory `"d"` whose log file holds one record, then three bytes that
do not parse, then one more record. -/
def corruptDisk : Disk :=
  { isDir := fun p => p == "d"
    creatable := fun _ => true
    file := fun p =>
      if p = "d" then
        some [.entry (NewEntry [97] [49] .PUT), .junk 3, .entry (NewEntry [98] [50] .PUT)]
      else none
    faults := [] }

/-- The log is well formed and the index is the file-order replay of the
log. -/
def Synced (hdr : Nat) (db : DiskDB) : Prop :=
  WellFormed hdr db.dbFile.blocks ∧ db.indexes = replay hdr db.dbFile.blocks 0 Index.empty

/-- The index invariant of section 3: every key of the index maps to the first
byte of a Put-marked record of the log that carries this key. -/
def IndexInv (hdr : Nat) (db : DiskDB) : Prop :=
  ∀ k off, db.indexes k = some off →
    ∃ e, db.dbFile.Read hdr off = .ok e ∧ e.Mark = .PUT ∧ e.Key = k

/-- A file system in which the directory `"d"` does not exist yet and can be
created; no log file anywhere. -/
def missingDisk : Disk :=
  { isDir := fun _ => false
    creatable := fun _ => true
    file := fun _ => none
    faults := [] }

/-- A store whose index maps key `a` to offset 0, where the log holds three
bytes that do not parse. -/
def junkStore : DiskDB :=
  { indexes := Index.empty.set [97] 0,
    dbFile := { blocks := [.junk 3], faults := [] },
    dirPath := "d" }

/-- The records of a sequence of blocks whose first byte is at `offset`, each
with the offset of its first byte, in file order. -/
def records (hdr : Nat) : List Block → Nat → List (Nat × Entry)
  | [], _ => []
  | .entry e :: bs, offset => (offset, e) :: records hdr bs (offset + e.GetSize hdr)
  | .junk len :: bs, offset => records hdr bs (offset + len)

/-- The loop of `loadIndexesFromFile` again (same reads, same cursor, same
fuel as `scan`), keeping instead of the index the trace of the iterations: the
cursor and the record of every successful read, in the order of the reads. -/
def scanVisits (hdr : Nat) (f : DBFile) : Nat → Nat → Option (List (Nat × Entry))
  | 0, _ => none
  | fuel + 1, offset =>
    match f.Read hdr offset with
    | .fail _ _ => some []
    | .ok e => (scanVisits hdr f fuel (offset + e.GetSize hdr)).map fun vs => (offset, e) :: vs

/-! ### The log file -/

theorem logSize_append (hdr : Nat) (xs ys : List Block) :
    logSize hdr (xs ++ ys) = logSize hdr xs + logSize hdr ys := by
  induction xs with
  | nil => simp [logSize]
  | cons b bs ih => simp [logSize, ih, Nat.add_assoc]

theorem readAt_skip (hdr : Nat) (pre bs : List Block) (k : Nat) :
    readAt hdr (pre ++ bs) (logSize hdr pre + k) = readAt hdr bs k := by
  induction pre with
  | nil => simp [logSize]
  | cons b pre ih =>
    have h1 : ¬ (b.size hdr + logSize hdr pre + k < b.size hdr) := by omega
    have h2 : b.size hdr + logSize hdr pre + k - b.size hdr = logSize hdr pre + k := by omega
    simp [readAt, logSize, h1, h2, ih]

theorem readAt_start (hdr : Nat) (pre post : List Block) (b : Block)
    (hb : 0 < b.size hdr) :
    readAt hdr (pre ++ b :: post) (logSize hdr pre) = b.parse := by
  have h := readAt_skip hdr pre (b :: post) 0
  simp only [Nat.add_zero] at h
  rw [h]
  simp [readAt, hb]

theorem readAt_end (hdr : Nat) (bs : List Block) :
    readAt hdr bs (logSize hdr bs) = .fail none .EOF := by
  have h := readAt_skip hdr bs [] 0
  simpa [readAt] using h

theorem readAt_append_ok (hdr : Nat) (bs cs : List Block) (off : Nat) (e : Entry)
    (h : readAt hdr bs off = .ok e) : readAt hdr (bs ++ cs) off = .ok e := by
  induction bs generalizing off with
  | nil => simp [readAt] at h
  | cons b bs ih =>
    simp only [readAt, List.cons_append] at h ⊢
    by_cases hlt : off < b.size hdr
    · simpa [hlt] using h
    · simp only [hlt, if_false] at h ⊢
      exact ih _ h

theorem newEntry_size_pos (hdr : Nat) (key value : Bytes) (mark : Mark) (hk : key ≠ []) :
    0 < (NewEntry key value mark).GetSize hdr := by
  have : 0 < key.length := List.length_pos.mpr hk
  simp only [Entry.GetSize, NewEntry]
  omega

/-! ### The recovery scan -/

theorem scan_fail (hdr : Nat) (f : DBFile) (fuel off : Nat) (m : Index)
    (e : Option Entry) (err : Error) (h : f.Read hdr off = .fail e err) :
    scan hdr f (fuel + 1) off m = some m := by
  simp [scan, h]

theorem scan_ok (hdr : Nat) (f : DBFile) (fuel off : Nat) (m : Index) (e : Entry)
    (h : f.Read hdr off = .ok e) :
    scan hdr f (fuel + 1) off m
      = scan hdr f fuel (off + e.GetSize hdr) (applyEntry m e off) := by
  simp only [scan, h, applyEntry]

theorem valid_entry (hdr : Nat) (b : Block) (h : b.valid hdr = true) :
    ∃ e, b = .entry e ∧ 0 < e.GetSize hdr := by
  cases b with
  | entry e => exact ⟨e, rfl, by simpa [Block.valid] using h⟩
  | junk n => simp [Block.valid] at h

theorem wellFormed_cons (hdr : Nat) (b : Block) (bs : List Block) :
    WellFormed hdr (b :: bs) ↔ b.valid hdr = true ∧ WellFormed hdr bs := by
  simp [WellFormed]

theorem wellFormed_append (hdr : Nat) (xs ys : List Block) :
    WellFormed hdr (xs ++ ys) ↔ WellFormed hdr xs ∧ WellFormed hdr ys := by
  simp only [WellFormed, List.mem_append]
  constructor
  · intro h
    exact ⟨fun b hb => h b (Or.inl hb), fun b hb => h b (Or.inr hb)⟩
  · rintro ⟨h1, h2⟩ b (hb | hb)
    · exact h1 b hb
    · exact h2 b hb

/-- Over a stretch of records the loop does what the replay does, one
iteration per record. -/
theorem scan_stretch (hdr : Nat) (f : DBFile) (rest : List Block) :
    ∀ (pre post : List Block) (fuel : Nat) (m : Index),
      WellFormed hdr rest → f.blocks = pre ++ rest ++ post →
      scan hdr f (rest.length + fuel) (logSize hdr pre) m
        = scan hdr f fuel (logSize hdr (pre ++ rest))
            (replay hdr rest (logSize hdr pre) m) := by
  induction rest with
  | nil => intro pre post fuel m _ _; simp [replay]
  | cons b rest ih =>
    intro pre post fuel m hwf hblocks
    obtain ⟨hb, hrest⟩ := (wellFormed_cons hdr b rest).mp hwf
    obtain ⟨e, rfl, hpos⟩ := valid_entry hdr b hb
    have hread : f.Read hdr (logSize hdr pre) = .ok e := by
      unfold DBFile.Read
      rw [hblocks, List.append_assoc, List.cons_append]
      exact readAt_start hdr pre (rest ++ post) (.entry e) hpos
    have hlen : (Block.entry e :: rest).length + fuel = (rest.length + fuel) + 1 := by
      simp only [List.length_cons]; omega
    rw [hlen, scan_ok hdr f _ _ m e hread]
    have hpre : logSize hdr (pre ++ [Block.entry e]) = logSize hdr pre + e.GetSize hdr := by
      simp [logSize_append, logSize, Block.size]
    have hblocks2 : f.blocks = (pre ++ [Block.entry e]) ++ rest ++ post := by
      rw [hblocks]; simp
    have := ih (pre ++ [Block.entry e]) post fuel (applyEntry m e (logSize hdr pre))
      hrest hblocks2
    rw [hpre] at this
    rw [this]
    simp [replay]

/-- On a well-formed log the loop ends within one iteration more than there
are records, and computes the replay of the whole log. -/
theorem scan_wellFormed (hdr : Nat) (f : DBFile) (fuel : Nat) (m : Index)
    (hwf : WellFormed hdr f.blocks) (hfuel : f.blocks.length < fuel) :
    scan hdr f fuel 0 m = some (replay hdr f.blocks 0 m) := by
  obtain ⟨k, rfl⟩ : ∃ k, fuel = f.blocks.length + (k + 1) := ⟨fuel - f.blocks.length - 1, by omega⟩
  have h := scan_stretch hdr f f.blocks [] [] (k + 1) m hwf (by simp)
  simp only [logSize, List.nil_append] at h
  rw [h]
  exact scan_fail hdr f k _ _ none .EOF (readAt_end hdr f.blocks)

/-- On a log whose records are followed by bytes that do not parse, the loop
ends at these bytes with the replay of the records before them. -/
theorem scan_corrupt (hdr : Nat) (f : DBFile) (pre post : List Block) (n fuel : Nat)
    (m : Index) (hblocks : f.blocks = pre ++ .junk n :: post) (hwf : WellFormed hdr pre)
    (hn : 0 < n) (hfuel : pre.length < fuel) :
    f.Read hdr (logSize hdr pre) = .fail none .ErrDecode
      ∧ scan hdr f fuel 0 m = some (replay hdr pre 0 m) := by
  have hread : f.Read hdr (logSize hdr pre) = .fail none .ErrDecode := by
    unfold DBFile.Read
    rw [hblocks]
    exact readAt_start hdr pre post (.junk n) hn
  refine ⟨hread, ?_⟩
  obtain ⟨k, rfl⟩ : ∃ k, fuel = pre.length + (k + 1) := ⟨fuel - pre.length - 1, by omega⟩
  have h := scan_stretch hdr f pre [] (.junk n :: post) (k + 1) m hwf (by simp [hblocks])
  simp only [logSize, List.nil_append] at h
  rw [h]
  exact scan_fail hdr f k _ _ none .ErrDecode hread

/-! ### The replay -/

theorem replay_append (hdr : Nat) (xs ys : List Block) :
    ∀ (off : Nat) (m : Index), WellFormed hdr xs →
      replay hdr (xs ++ ys) off m = replay hdr ys (off + logSize hdr xs) (replay hdr xs off m) := by
  induction xs with
  | nil => intro off m _; simp [replay, logSize]
  | cons b xs ih =>
    intro off m hwf
    obtain ⟨hb, hxs⟩ := (wellFormed_cons hdr b xs).mp hwf
    obtain ⟨e, rfl, _⟩ := valid_entry hdr b hb
    show replay hdr (xs ++ ys) (off + e.GetSize hdr) (applyEntry m e off)
      = replay hdr ys (off + (e.GetSize hdr + logSize hdr xs))
          (replay hdr xs (off + e.GetSize hdr) (applyEntry m e off))
    rw [ih _ _ hxs, Nat.add_assoc]

theorem applyEntry_other (m : Index) (e : Entry) (off : Nat) (k : Bytes) (h : e.Key ≠ k) :
    applyEntry m e off k = m k := by
  have h2 : ¬ k = e.Key := fun h3 => h h3.symm
  unfold applyEntry
  by_cases hm : e.Mark = .DEL <;> simp [hm, Index.set, Index.delete, h2]

theorem applyEntry_same (m : Index) (e : Entry) (off : Nat) :
    applyEntry m e off e.Key = if e.Mark = .PUT then some off else none := by
  unfold applyEntry
  cases hm : e.Mark <;> simp [Index.set, Index.delete]

theorem replay_other (hdr : Nat) (bs : List Block) (k : Bytes) :
    ∀ (off : Nat) (m : Index), (∀ e, Block.entry e ∈ bs → e.Key ≠ k) →
      replay hdr bs off m k = m k := by
  induction bs with
  | nil => intro off m _; rfl
  | cons b bs ih =>
    intro off m h
    cases b with
    | junk n => rfl
    | entry e =>
      simp only [replay]
      rw [ih _ _ (fun e' he' => h e' (List.mem_cons_of_mem _ he'))]
      exact applyEntry_other m e off k (h e (List.mem_cons_self _ _))

/-- The last record of a key decides the entry of the key in the replay. -/
theorem replay_last (hdr : Nat) (pre post : List Block) (e : Entry) (m : Index)
    (hwf : WellFormed hdr pre)
    (hlast : ∀ e2, Block.entry e2 ∈ post → e2.Key ≠ e.Key) :
    replay hdr (pre ++ .entry e :: post) 0 m e.Key
      = if e.Mark = .PUT then some (logSize hdr pre) else none := by
  rw [replay_append hdr pre _ 0 m hwf]
  simp only [replay, Nat.zero_add]
  rw [replay_other hdr post e.Key _ _ hlast]
  exact applyEntry_same _ e _

/-- A key that has a record has a last record. -/
theorem exists_last_record (bs : List Block) (k : Bytes) :
    (∃ e, Block.entry e ∈ bs ∧ e.Key = k) →
      ∃ pre e post, bs = pre ++ .entry e :: post ∧ e.Key = k
        ∧ ∀ e2, Block.entry e2 ∈ post → e2.Key ≠ k := by
  induction bs with
  | nil => rintro ⟨e, he, _⟩; simp at he
  | cons b bs ih =>
    rintro ⟨e, he, hk⟩
    by_cases hlater : ∃ e2, Block.entry e2 ∈ bs ∧ e2.Key = k
    · obtain ⟨pre, e1, post, hbs, hk1, hpost⟩ := ih hlater
      exact ⟨b :: pre, e1, post, by simp [hbs], hk1, hpost⟩
    · have hb : b = .entry e := by
        rcases List.mem_cons.mp he with h | h
        · exact h.symm
        · exact absurd ⟨e, h, hk⟩ hlater
      refine ⟨[], e, bs, by simp [hb], hk, ?_⟩
      intro e2 he2 hk2
      exact hlater ⟨e2, he2, hk2⟩

/-! ### Put, Get, Del -/

theorem length_ne_zero {key : Bytes} (hk : key ≠ []) : ¬ key.length = 0 := by
  intro h
  exact hk (List.length_eq_zero.mp h)

/-- A successful `Put` of a non-empty key appends one Put-marked record and
maps the key to the old end of the log. -/
theorem Put_ok_state (hdr : Nat) (db : DiskDB) (key value : Bytes) (hk : key ≠ [])
    (h : (Put hdr db key value).2 = none) :
    (Put hdr db key value).1.dbFile.blocks
        = db.dbFile.blocks ++ [.entry (NewEntry key value .PUT)]
      ∧ (Put hdr db key value).1.indexes
        = db.indexes.set key (logSize hdr db.dbFile.blocks) := by
  have hl := length_ne_zero hk
  unfold Put at h ⊢
  simp only [hl, if_false] at h ⊢
  unfold DBFile.Write at h ⊢
  rcases hf : db.dbFile.faults with _ | ⟨o, rest⟩
  · simp [hf, DBFile.Offset]
  · cases o with
    | none => simp [hf, DBFile.Offset]
    | some err => simp [hf] at h

theorem Get_after_Put (hdr : Nat) (db : DiskDB) (key value : Bytes) (hk : key ≠ [])
    (h : (Put hdr db key value).2 = none) :
    Get hdr (Put hdr db key value).1 key = (value, none) := by
  obtain ⟨hb, hi⟩ := Put_ok_state hdr db key value hk h
  have hl := length_ne_zero hk
  have hr : (Put hdr db key value).1.dbFile.Read hdr (logSize hdr db.dbFile.blocks)
      = .ok (NewEntry key value .PUT) := by
    unfold DBFile.Read
    rw [hb]
    exact readAt_start hdr _ [] _ (newEntry_size_pos hdr key value .PUT hk)
  unfold Get
  simp only [hl, if_false, hi, Index.set, if_true, hr]
  rfl

theorem Del_ok_state (db : DiskDB) (key : Bytes) (off : Nat) (hk : key ≠ [])
    (hin : db.indexes key = some off) (h : (Del db key).2 = none) :
    (Del db key).1.dbFile.blocks = db.dbFile.blocks ++ [.entry (NewEntry key [] .DEL)]
      ∧ (Del db key).1.indexes = db.indexes.delete key := by
  have hl := length_ne_zero hk
  unfold Del at h ⊢
  simp only [hl, if_false, hin] at h ⊢
  unfold DBFile.Write at h ⊢
  rcases hf : db.dbFile.faults with _ | ⟨o, rest⟩
  · simp [hf]
  · cases o with
    | none => simp [hf]
    | some err => simp [hf] at h

/-! ### The index follows the log -/

theorem scan_mono (hdr : Nat) (f : DBFile) (fuel : Nat) :
    ∀ (off : Nat) (m r : Index) (k : Nat), scan hdr f fuel off m = some r →
      scan hdr f (fuel + k) off m = some r := by
  induction fuel with
  | zero => intro off m r k h; simp [scan] at h
  | succ fuel ih =>
    intro off m r k h
    have hk : fuel + 1 + k = (fuel + k) + 1 := by omega
    rw [hk]
    cases hr : f.Read hdr off with
    | fail e err =>
      rw [scan_fail hdr f fuel off m e err hr] at h
      rw [scan_fail hdr f _ off m e err hr]
      exact h
    | ok e =>
      rw [scan_ok hdr f fuel off m e hr] at h
      rw [scan_ok hdr f _ off m e hr]
      exact ih _ _ _ k h

/-- Whatever fuel let the loop end on a well-formed log, what it computed is
the replay of the log. -/
theorem scan_result (hdr : Nat) (f : DBFile) (fuel : Nat) (m r : Index)
    (hwf : WellFormed hdr f.blocks) (h : scan hdr f fuel 0 m = some r) :
    r = replay hdr f.blocks 0 m := by
  have h1 := scan_mono hdr f fuel 0 m r (f.blocks.length + 1) h
  have h2 := scan_wellFormed hdr f (fuel + (f.blocks.length + 1)) m hwf (by omega)
  rw [h1] at h2
  exact Option.some.inj h2

theorem load_synced (hdr fuel : Nat) (f : DBFile) (dir : String) (db : DiskDB)
    (hwf : WellFormed hdr f.blocks)
    (h : loadIndexesFromFile hdr fuel { indexes := Index.empty, dbFile := f, dirPath := dir }
      = some db) :
    db.dbFile = f ∧ Synced hdr db := by
  unfold loadIndexesFromFile at h
  cases hs : scan hdr f fuel 0 Index.empty with
  | none => simp [hs] at h
  | some r =>
    simp only [hs, Option.map_some'] at h
    have hr := scan_result hdr f fuel Index.empty r hwf hs
    have hdb := Option.some.inj h
    subst hdb
    exact ⟨rfl, hwf, hr⟩

theorem load_of_wellFormed (hdr fuel : Nat) (db : DiskDB)
    (hwf : WellFormed hdr db.dbFile.blocks) (hfuel : db.dbFile.blocks.length < fuel) :
    loadIndexesFromFile hdr fuel db
      = some { db with indexes := replay hdr db.dbFile.blocks 0 db.indexes } := by
  unfold loadIndexesFromFile
  rw [scan_wellFormed hdr db.dbFile fuel db.indexes hwf hfuel]
  rfl

theorem replay_snoc (hdr : Nat) (bs : List Block) (e : Entry) (m : Index)
    (hwf : WellFormed hdr bs) :
    replay hdr (bs ++ [.entry e]) 0 m = applyEntry (replay hdr bs 0 m) e (logSize hdr bs) := by
  rw [replay_append hdr bs _ 0 m hwf]
  simp [replay]

theorem applyEntry_put (m : Index) (key value : Bytes) (off : Nat) :
    applyEntry m (NewEntry key value .PUT) off = m.set key off := by
  simp [applyEntry, NewEntry]

theorem applyEntry_del (m : Index) (key value : Bytes) (off : Nat) :
    applyEntry m (NewEntry key value .DEL) off = m.delete key := by
  funext q
  by_cases hq : q = key <;> simp [applyEntry, NewEntry, Index.set, Index.delete, hq]

theorem wellFormed_snoc (hdr : Nat) (bs : List Block) (key value : Bytes) (mark : Mark)
    (hwf : WellFormed hdr bs) (hk : key ≠ []) :
    WellFormed hdr (bs ++ [.entry (NewEntry key value mark)]) := by
  rw [wellFormed_append]
  refine ⟨hwf, ?_⟩
  intro b hb
  rw [List.mem_singleton] at hb
  subst hb
  simpa [Block.valid] using newEntry_size_pos hdr key value mark hk

theorem Put_synced (hdr : Nat) (db : DiskDB) (key value : Bytes)
    (hs : Synced hdr db) (h : (Put hdr db key value).2 = none) :
    Synced hdr (Put hdr db key value).1 := by
  by_cases hk : key = []
  · have : Put hdr db key value = (db, none) := by simp [Put, hk]
    rw [this]; exact hs
  · obtain ⟨hb, hi⟩ := Put_ok_state hdr db key value hk h
    obtain ⟨hwf, hidx⟩ := hs
    refine ⟨?_, ?_⟩
    · rw [hb]; exact wellFormed_snoc hdr _ key value .PUT hwf hk
    · rw [hb, hi, replay_snoc hdr _ _ _ hwf, applyEntry_put, hidx]

theorem Del_synced (hdr : Nat) (db : DiskDB) (key : Bytes)
    (hs : Synced hdr db) (h : (Del db key).2 = none) :
    Synced hdr (Del db key).1 := by
  by_cases hk : key = []
  · have : Del db key = (db, none) := by simp [Del, hk]
    rw [this]; exact hs
  · cases hin : db.indexes key with
    | none =>
      have : Del db key = (db, none) := by simp [Del, length_ne_zero hk, hin]
      rw [this]; exact hs
    | some off =>
      obtain ⟨hb, hi⟩ := Del_ok_state db key off hk hin h
      obtain ⟨hwf, hidx⟩ := hs
      refine ⟨?_, ?_⟩
      · rw [hb]; exact wellFormed_snoc hdr _ key [] .DEL hwf hk
      · rw [hb, hi, replay_snoc hdr _ _ _ hwf, applyEntry_del, hidx]

theorem runOps_synced (hdr : Nat) (ops : List Op) :
    ∀ (db db1 : DiskDB), Synced hdr db → runOps hdr db ops = some db1 → Synced hdr db1 := by
  induction ops with
  | nil =>
    intro db db1 hs h
    simp only [runOps, Option.some.injEq] at h
    subst h; exact hs
  | cons op ops ih =>
    intro db db1 hs h
    rcases hr : op.run hdr db with ⟨dbm, o⟩
    cases o with
    | some err => simp [runOps, hr] at h
    | none =>
      simp only [runOps, hr] at h
      refine ih dbm db1 ?_ h
      cases op with
      | put key value =>
        have h2 : (Put hdr db key value).2 = none := by
          have := congrArg Prod.snd hr; simpa [Op.run] using this
        have h1 : (Put hdr db key value).1 = dbm := by
          have := congrArg Prod.fst hr; simpa [Op.run] using this
        rw [← h1]; exact Put_synced hdr db key value hs h2
      | del key =>
        have h2 : (Del db key).2 = none := by
          have := congrArg Prod.snd hr; simpa [Op.run] using this
        have h1 : (Del db key).1 = dbm := by
          have := congrArg Prod.fst hr; simpa [Op.run] using this
        rw [← h1]; exact Del_synced hdr db key hs h2

/-- In a synced store every key of the index maps to the first byte of the last
record of that key, which is Put-marked. -/
theorem synced_points_to_put (hdr : Nat) (db : DiskDB) (hs : Synced hdr db)
    (k : Bytes) (off : Nat) (h : db.indexes k = some off) :
    ∃ pre e post, db.dbFile.blocks = pre ++ .entry e :: post ∧ off = logSize hdr pre
      ∧ e.Mark = .PUT ∧ e.Key = k ∧ (∀ e2, Block.entry e2 ∈ post → e2.Key ≠ k)
      ∧ db.dbFile.Read hdr off = .ok e := by
  obtain ⟨hwf, hidx⟩ := hs
  rw [hidx] at h
  have hex : ∃ e, Block.entry e ∈ db.dbFile.blocks ∧ e.Key = k := by
    by_contra hno
    have hnone := replay_other hdr db.dbFile.blocks k 0 Index.empty
      (fun e he hk => hno ⟨e, he, hk⟩)
    rw [hnone] at h
    simp [Index.empty] at h
  obtain ⟨pre, e, post, hb, hk, hpost⟩ := exists_last_record db.dbFile.blocks k hex
  have hwf2 := hwf
  rw [hb, wellFormed_append, wellFormed_cons] at hwf2
  obtain ⟨hpre, hbe, _⟩ := hwf2
  have hpos : 0 < e.GetSize hdr := by simpa [Block.valid] using hbe
  subst hk
  have hl := replay_last hdr pre post e Index.empty hpre hpost
  rw [← hb, h] at hl
  by_cases hm : e.Mark = .PUT
  · simp only [hm, if_true, Option.some.injEq] at hl
    refine ⟨pre, e, post, hb, hl, hm, rfl, hpost, ?_⟩
    unfold DBFile.Read
    rw [hb, hl]
    exact readAt_start hdr pre post (.entry e) hpos
  · simp [hm] at hl

/-- C1 (round-trip): a `Put` of a non-empty key that returns no error is
followed by a `Get` of that key that returns exactly the value put and no
error, in every store state. -/
theorem Put_Get_roundtrip (hdr : Nat) (db : DiskDB) (key value : Bytes)
    (hk : key ≠ []) (hput : (Put hdr db key value).2 = none) :
    Get hdr (Put hdr db key value).1 key = (value, none) :=
  Get_after_Put hdr db key value hk hput

theorem Put_Get_roundtrip_witness :
    ([97] : Bytes) ≠ []
      ∧ (Put 10 (freshStore []) [97] [49]).2 = none
      ∧ Get 10 (Put 10 (freshStore []) [97] [49]).1 [97] = ([49], none) :=
  ⟨by decide, by decide, Put_Get_roundtrip 10 _ [97] [49] (by decide) (by decide)⟩

/-- C2 (recovery fidelity): take a store opened on a well-formed log (the empty
log included) and any sequence of `Put`/`Del` calls none of which returns an
error. The recovery scan, run from an empty index over the log that results
(as `Open` does on reopen), ends within one iteration more than the log has
records, and gives an index that is the in-memory index before closing: `Get`
returns the same result for every key. -/
theorem recovery_fidelity (hdr fuel0 fuel : Nat) (blocks : List Block)
    (faults faults2 : List (Option Error)) (dir : String) (ops : List Op) (db0 db1 : DiskDB)
    (hwf : WellFormed hdr blocks)
    (hopen : loadIndexesFromFile hdr fuel0
      { indexes := Index.empty, dbFile := { blocks := blocks, faults := faults }, dirPath := dir }
        = some db0)
    (hops : runOps hdr db0 ops = some db1)
    (hfuel : db1.dbFile.blocks.length < fuel) :
    ∃ db2, loadIndexesFromFile hdr fuel
        { indexes := Index.empty, dbFile := { blocks := db1.dbFile.blocks, faults := faults2 },
          dirPath := dir } = some db2
      ∧ db2.indexes = db1.indexes
      ∧ ∀ key, Get hdr db2 key = Get hdr db1 key := by
  obtain ⟨_, hs0⟩ := load_synced hdr fuel0 _ dir db0 hwf hopen
  obtain ⟨hwf1, hidx1⟩ := runOps_synced hdr ops db0 db1 hs0 hops
  refine ⟨_, load_of_wellFormed hdr fuel _ hwf1 hfuel, hidx1.symm, ?_⟩
  intro key
  simp only [Get, DBFile.Read, ← hidx1]

theorem recovery_fidelity_witness :
    ∃ db2, loadIndexesFromFile 10 5
        { indexes := Index.empty, dbFile := { blocks := exampleLog, faults := [] },
          dirPath := "d" } = some db2
      ∧ Get 10 db2 [97] = ([51], none) ∧ Get 10 db2 [98] = ([50], none) := by
  obtain ⟨db2, hload, _, hget⟩ := recovery_fidelity 10 1 5 [] [] [] "d" exampleOps
    (freshStore [])
    (Put 10 (Del (Put 10 (Put 10 (freshStore []) [97] [49]).1 [98] [50]).1 [97]).1 [97] [51]).1
    (by decide) rfl rfl (by decide)
  exact ⟨db2, hload, by rw [hget]; decide, by rw [hget]; decide⟩

/-- C3 (overwrite): when `Put key v1` and then `Put key v2` both return no
error, a following `Get key` returns `v2` and no error. -/
theorem Put_Put_Get_overwrite (hdr : Nat) (db : DiskDB) (key v1 v2 : Bytes)
    (hk : key ≠ []) (_h1 : (Put hdr db key v1).2 = none)
    (h2 : (Put hdr (Put hdr db key v1).1 key v2).2 = none) :
    Get hdr (Put hdr (Put hdr db key v1).1 key v2).1 key = (v2, none) :=
  Get_after_Put hdr _ key v2 hk h2

theorem Put_Put_Get_overwrite_witness :
    Get 10 (Put 10 (Put 10 (freshStore []) [97] [49]).1
        [97] [50]).1 [97] = ([50], none) :=
  Put_Put_Get_overwrite 10 _ [97] [49] [50] (by decide) (by decide) (by decide)

/-- C4 (delete removes): when a non-empty key is present in the index and
`Del key` returns no error, a following `Get key` returns the absent value and
no error. -/
theorem Del_Get_absent (hdr : Nat) (db : DiskDB) (key : Bytes) (off : Nat)
    (hk : key ≠ []) (hin : db.indexes key = some off) (hdel : (Del db key).2 = none) :
    Get hdr (Del db key).1 key = ([], none) := by
  obtain ⟨_, hi⟩ := Del_ok_state db key off hk hin hdel
  unfold Get
  simp [hi, Index.delete]

theorem Del_Get_absent_witness :
    Get 10 (Del (Put 10 (freshStore []) [97] [49]).1
        [97]).1 [97] = ([], none) :=
  Del_Get_absent 10 _ [97] 0 (by decide) (by decide) (by decide)

/-- C5 (failing input): on a fresh store whose next append fails, `Put` returns
the error of the append and nevertheless maps the key to the current write
offset, at which the log holds nothing: the index has changed and `Get` of the
key now reports end-of-data instead of the absent value. -/
theorem Put_write_failure_sets_index :
    (Put 10 (freshStore [some (.ErrOther 28)]) [97] [49]).2 = some (.ErrOther 28)
      ∧ (Put 10 (freshStore [some (.ErrOther 28)]) [97] [49]).1.dbFile.blocks = []
      ∧ Index.empty [97] = none
      ∧ (Put 10 (freshStore [some (.ErrOther 28)]) [97] [49]).1.indexes [97] = some 0
      ∧ Get 10 (freshStore [some (.ErrOther 28)]) [97] = ([], none)
      ∧ Get 10 (Put 10 (freshStore [some (.ErrOther 28)]) [97] [49]).1 [97] = ([], some .EOF) := by
  refine ⟨by decide, by decide, by decide, by decide, by decide, by decide⟩

/-- C6 (write failure in `Del`): when the append made by `Del` for a non-empty
key present in the index fails with `err`, `Del` returns `err` and the index is
exactly what it was, the key still mapped to its old offset. -/
theorem Del_write_failure_keeps_index (db : DiskDB) (key : Bytes) (off : Nat) (err : Error)
    (hk : key ≠ []) (hin : db.indexes key = some off)
    (hw : (db.dbFile.Write (NewEntry key [] .DEL)).2 = some err) :
    (Del db key).2 = some err ∧ (Del db key).1.indexes = db.indexes
      ∧ (Del db key).1.indexes key = some off := by
  have hl := length_ne_zero hk
  unfold Del
  simp only [hl, if_false, hin]
  rcases hr : db.dbFile.Write (NewEntry key [] .DEL) with ⟨file, e⟩
  rw [hr] at hw
  simp only at hw
  subst hw
  simp [hin]

theorem Del_write_failure_keeps_index_witness :
    (Del (oneKeyStore [some (.ErrOther 28)]) [97]).2 = some (.ErrOther 28)
      ∧ (Del (oneKeyStore [some (.ErrOther 28)]) [97]).1.indexes = Index.empty.set [97] 0
      ∧ (Del (oneKeyStore [some (.ErrOther 28)]) [97]).1.indexes [97] = some 0 :=
  Del_write_failure_keeps_index _ [97] 0 (.ErrOther 28) (by decide) (by decide) (by decide)

/-- C10 (deleting an absent key): for a non-empty key that is not in the
index, `Del` returns no error and the store it leaves is the store it found
(nothing appended, index unchanged); a second `Del` of the key therefore gives
the same store as the first. -/
theorem Del_absent_noop (db : DiskDB) (key : Bytes) (hk : key ≠ [])
    (hin : db.indexes key = none) :
    Del db key = (db, none) ∧ Del (Del db key).1 key = Del db key := by
  have hl := length_ne_zero hk
  have h1 : Del db key = (db, none) := by
    unfold Del
    simp [hl, hin]
  exact ⟨h1, by rw [h1]; exact h1⟩

theorem Del_absent_noop_witness :
    Del (freshStore []) [97]
        = ((freshStore []),
            none)
      ∧ Del (Del (freshStore []) [97]).1 [97]
        = Del (freshStore []) [97] :=
  Del_absent_noop _ [97] (by decide) (by decide)

/-- C7 (counterexample): the log of `corruptDisk` holds a record, then bytes
that do not parse; the scan's read at cursor 12 fails with a decode error, yet
`Open` returns a store and no error, with the index built up to that point. -/
theorem Open_corrupt_log_returns_store :
    DBFile.Read 10
        { blocks := [.entry (NewEntry [97] [49] .PUT), .junk 3,
            .entry (NewEntry [98] [50] .PUT)], faults := [] } 12 = .fail none .ErrDecode
      ∧ (∃ db d, Open 10 2 corruptDisk "d" = some ((some db, none), d)
          ∧ db.indexes [97] = some 0 ∧ db.indexes [98] = none)
      ∧ ¬ ∃ err d, Open 10 2 corruptDisk "d" = some ((none, some err), d) := by
  refine ⟨by decide, ⟨_, _, rfl, by decide, by decide⟩, ?_⟩
  rintro ⟨err, d, h⟩
  have hopen : Open 10 2 corruptDisk "d" = some ((some _, none), _) := rfl
  rw [hopen] at h
  simp at h

/-- C7 (amended): when the log file of an existing directory holds well-formed
records followed by bytes that do not parse, the scan's read at the cursor of
these bytes fails with a decode error and `Open` still returns a store and no
error; the index of that store is the one the scan builds from the records
before the failing cursor. -/
theorem Open_corrupt_log_index_before (hdr fuel : Nat) (d : Disk) (dir : String)
    (pre post : List Block) (n : Nat)
    (hdir : d.isDir dir = true) (hfile : d.file dir = some (pre ++ .junk n :: post))
    (hwf : WellFormed hdr pre) (hn : 0 < n) (hfuel : pre.length < fuel) :
    ∃ db, Open hdr fuel d dir = some ((some db, none), d)
      ∧ db.dbFile.blocks = pre ++ .junk n :: post
      ∧ db.dbFile.Read hdr (logSize hdr pre) = .fail none .ErrDecode
      ∧ loadIndexesFromFile hdr fuel
          { indexes := Index.empty, dbFile := { blocks := pre, faults := d.faults },
            dirPath := dir }
        = some { indexes := db.indexes, dbFile := { blocks := pre, faults := d.faults },
                 dirPath := dir } := by
  obtain ⟨hread, hscan⟩ := scan_corrupt hdr
    { blocks := pre ++ .junk n :: post, faults := d.faults } pre post n fuel Index.empty
    rfl hwf hn hfuel
  refine ⟨{ indexes := replay hdr pre 0 Index.empty,
            dbFile := { blocks := pre ++ .junk n :: post, faults := d.faults },
            dirPath := dir }, ?_, rfl, hread, ?_⟩
  · simp [Open, os.Stat, os.IsExist, hdir, NewDBFile, hfile, loadIndexesFromFile, hscan]
  · exact load_of_wellFormed hdr fuel _ hwf hfuel

theorem Open_corrupt_log_index_before_witness :
    ∃ db, Open 10 2 corruptDisk "d" = some ((some db, none), corruptDisk)
      ∧ db.dbFile.blocks = [.entry (NewEntry [97] [49] .PUT)]
          ++ .junk 3 :: [.entry (NewEntry [98] [50] .PUT)]
      ∧ db.dbFile.Read 10 (logSize 10 [.entry (NewEntry [97] [49] .PUT)])
          = .fail none .ErrDecode
      ∧ loadIndexesFromFile 10 2
          { indexes := Index.empty,
            dbFile := { blocks := [.entry (NewEntry [97] [49] .PUT)],
                        faults := corruptDisk.faults },
            dirPath := "d" }
        = some { indexes := db.indexes,
                 dbFile := { blocks := [.entry (NewEntry [97] [49] .PUT)],
                             faults := corruptDisk.faults },
                 dirPath := "d" } :=
  Open_corrupt_log_index_before 10 2 corruptDisk "d" [.entry (NewEntry [97] [49] .PUT)]
    [.entry (NewEntry [98] [50] .PUT)] 3 (by decide) (by decide) (by decide) (by decide)
    (by decide)

/-- C8 (recovery is last-record-wins): on a well-formed log the scan, started
from an empty index, ends within one iteration more than there are records, and
in the index it leaves: the last record of a key maps the key to the offset of
that record when it is Put-marked and leaves the key absent when it is
Delete-marked; a key without a record is absent; and so a key is present only
if its last record is Put-marked, mapped to the offset of that record. -/
theorem recovery_last_record_wins (hdr fuel : Nat) (f : DBFile) (dir : String)
    (hwf : WellFormed hdr f.blocks) (hfuel : f.blocks.length < fuel) :
    ∃ db, loadIndexesFromFile hdr fuel { indexes := Index.empty, dbFile := f, dirPath := dir }
        = some db
      ∧ (∀ pre e post, f.blocks = pre ++ .entry e :: post →
          (∀ e2, Block.entry e2 ∈ post → e2.Key ≠ e.Key) →
          db.indexes e.Key = if e.Mark = .PUT then some (logSize hdr pre) else none)
      ∧ (∀ k, (∀ e, Block.entry e ∈ f.blocks → e.Key ≠ k) → db.indexes k = none)
      ∧ (∀ k off, db.indexes k = some off →
          ∃ pre e post, f.blocks = pre ++ .entry e :: post ∧ off = logSize hdr pre
            ∧ e.Mark = .PUT ∧ e.Key = k ∧ ∀ e2, Block.entry e2 ∈ post → e2.Key ≠ k) := by
  have hload := load_of_wellFormed hdr fuel
    { indexes := Index.empty, dbFile := f, dirPath := dir } hwf hfuel
  refine ⟨_, hload, ?_, ?_, ?_⟩
  · intro pre e post hb hlast
    have hpre : WellFormed hdr pre := by
      have h := hwf
      rw [hb, wellFormed_append] at h
      exact h.1
    show replay hdr f.blocks 0 Index.empty e.Key = _
    rw [hb]
    exact replay_last hdr pre post e Index.empty hpre hlast
  · intro k hno
    exact replay_other hdr f.blocks k 0 Index.empty hno
  · intro k off hk
    obtain ⟨pre, e, post, hb, hoff, hm, hkey, hpost, _⟩ :=
      synced_points_to_put hdr
        { indexes := replay hdr f.blocks 0 Index.empty, dbFile := f, dirPath := dir }
        ⟨hwf, rfl⟩ k off hk
    exact ⟨pre, e, post, hb, hoff, hm, hkey, hpost⟩

theorem recovery_last_record_wins_witness :
    ∃ db, loadIndexesFromFile 10 5
        { indexes := Index.empty, dbFile := { blocks := exampleLog, faults := [] },
          dirPath := "d" } = some db
      ∧ db.indexes [97] = some 35 ∧ db.indexes [98] = some 12 ∧ db.indexes [99] = none := by
  obtain ⟨db, hload, hlast, hnone, _⟩ := recovery_last_record_wins 10 5
    { blocks := exampleLog, faults := [] } "d" (by decide) (by decide)
  refine ⟨db, hload, ?_, ?_, ?_⟩
  · exact hlast [.entry (NewEntry [97] [49] .PUT), .entry (NewEntry [98] [50] .PUT),
      .entry (NewEntry [97] [] .DEL)] (NewEntry [97] [51] .PUT) [] rfl (by simp)
  · exact hlast [.entry (NewEntry [97] [49] .PUT)] (NewEntry [98] [50] .PUT)
      [.entry (NewEntry [97] [] .DEL), .entry (NewEntry [97] [51] .PUT)] rfl
      (by simp [NewEntry])
  · exact hnone [99] (by simp [exampleLog, NewEntry])

/-- C9 (index invariant): in every state reached from a store opened on a
well-formed log by `Put`/`Del` calls none of which returns an error, every key
of the index maps to an offset that is the first byte of a record of the log,
and that record is Put-marked and carries this key (a read at the offset
returns it). -/
theorem index_invariant_reachable (hdr fuel0 : Nat) (blocks : List Block)
    (faults : List (Option Error)) (dir : String) (ops : List Op) (db0 db1 : DiskDB)
    (hwf : WellFormed hdr blocks)
    (hopen : loadIndexesFromFile hdr fuel0
      { indexes := Index.empty, dbFile := { blocks := blocks, faults := faults }, dirPath := dir }
        = some db0)
    (hops : runOps hdr db0 ops = some db1) :
    IndexInv hdr db1
      ∧ ∀ k off, db1.indexes k = some off →
          ∃ pre e post, db1.dbFile.blocks = pre ++ .entry e :: post ∧ off = logSize hdr pre
            ∧ e.Mark = .PUT ∧ e.Key = k := by
  obtain ⟨_, hs0⟩ := load_synced hdr fuel0 _ dir db0 hwf hopen
  have hs1 := runOps_synced hdr ops db0 db1 hs0 hops
  constructor
  · intro k off hk
    obtain ⟨pre, e, post, _, _, hm, hkey, _, hread⟩ := synced_points_to_put hdr db1 hs1 k off hk
    exact ⟨e, hread, hm, hkey⟩
  · intro k off hk
    obtain ⟨pre, e, post, hb, hoff, hm, hkey, _, _⟩ := synced_points_to_put hdr db1 hs1 k off hk
    exact ⟨pre, e, post, hb, hoff, hm, hkey⟩

theorem index_invariant_reachable_witness :
    IndexInv 10
      (Put 10 (Del (Put 10 (Put 10 (freshStore []) [97] [49]).1 [98] [50]).1 [97]).1 [97] [51]).1
      ∧ ∀ k off,
        (Put 10 (Del (Put 10 (Put 10 (freshStore []) [97] [49]).1 [98] [50]).1 [97]).1
            [97] [51]).1.indexes k = some off →
          ∃ pre e post, exampleLog = pre ++ .entry e :: post ∧ off = logSize 10 pre
            ∧ e.Mark = .PUT ∧ e.Key = k :=
  index_invariant_reachable 10 1 [] [] "d" exampleOps (freshStore []) _ (by decide) rfl rfl

/-! ### Guards, postconditions and error paths -/

/-- C11 (empty-key guard): with the empty key, `Put`, `Get` and `Del` return no
error (`Get` the absent value) and leave the store they found, log, pending
append outcomes and index alike, whatever the log file is; `Get` of any key is
the same before and after. -/
theorem empty_key_guard (hdr : Nat) (db : DiskDB) (v k : Bytes) :
    Put hdr db [] v = (db, none) ∧ Get hdr db [] = ([], none) ∧ Del db [] = (db, none)
      ∧ Get hdr (Put hdr db [] v).1 k = Get hdr db k
      ∧ Get hdr (Del db []).1 k = Get hdr db k := by
  have hp : Put hdr db [] v = (db, none) := by simp [Put]
  have hd : Del db [] = (db, none) := by simp [Del]
  refine ⟨hp, by simp [Get], hd, by rw [hp], by rw [hd]⟩

/-- C12 (unknown key): for a non-empty key that is not in the index, `Get`
returns the absent value and a nil error, and does so whatever the log file
is: the log is not read. -/
theorem Get_unknown_key (hdr : Nat) (db : DiskDB) (key : Bytes) (hk : key ≠ [])
    (hin : db.indexes key = none) :
    Get hdr db key = ([], none)
      ∧ ∀ f : DBFile, Get hdr { db with dbFile := f } key = ([], none) := by
  have hl := length_ne_zero hk
  constructor
  · simp [Get, hl, hin]
  · intro f
    simp [Get, hl, hin]

theorem Get_unknown_key_witness :
    Get 10 junkStore [98] = ([], none)
      ∧ ∀ f : DBFile, Get 10 { junkStore with dbFile := f } [98] = ([], none) :=
  Get_unknown_key 10 junkStore [98] (by decide) (by decide)

/-- C13 (failing input): on a file system where the directory `"d"` is missing
and creatable, `os.Stat` reports `ErrNotExist`, `os.IsExist` of that error is
false, so `Open` skips `os.MkdirAll` (which would have created the directory)
and calls `NewDBFile` while the directory does not exist: `Open` returns that
failure and the directory is still missing afterwards. -/
theorem Open_missing_directory_not_created :
    missingDisk.isDir "d" = false ∧ missingDisk.creatable "d" = true
      ∧ os.Stat missingDisk "d" = some .ErrNotExist
      ∧ os.IsExist (os.Stat missingDisk "d") = false
      ∧ (os.MkdirAll missingDisk "d").1.isDir "d" = true
      ∧ (∃ d, Open 10 1 missingDisk "d" = some ((none, some .ErrNotExist), d)
          ∧ d.isDir "d" = false) := by
  refine ⟨by decide, by decide, by decide, by decide, by decide, ⟨_, rfl, by decide⟩⟩

/-- C16 (postcondition of `Put`): a `Put` of a non-empty key that returns no
error leaves the old log followed by exactly one Put-marked record of the key
and the value, and the old index with the key remapped to the write offset
seen before the append, which is the old length of the log and the first byte
of the new record; the other keys keep their entries. -/
theorem Put_postcondition (hdr : Nat) (db : DiskDB) (key value : Bytes)
    (hk : key ≠ []) (hput : (Put hdr db key value).2 = none) :
    (Put hdr db key value).1.dbFile.blocks
        = db.dbFile.blocks ++ [.entry (NewEntry key value .PUT)]
      ∧ (Put hdr db key value).1.indexes = db.indexes.set key (db.dbFile.Offset hdr)
      ∧ db.dbFile.Offset hdr = logSize hdr db.dbFile.blocks
      ∧ (Put hdr db key value).1.indexes key = some (db.dbFile.Offset hdr)
      ∧ (∀ q, q ≠ key → (Put hdr db key value).1.indexes q = db.indexes q)
      ∧ (Put hdr db key value).1.dbFile.Read hdr (db.dbFile.Offset hdr)
          = .ok (NewEntry key value .PUT)
      ∧ (Put hdr db key value).1.dbFile.Offset hdr
          = db.dbFile.Offset hdr + (NewEntry key value .PUT).GetSize hdr := by
  obtain ⟨hb, hi⟩ := Put_ok_state hdr db key value hk hput
  refine ⟨hb, hi, rfl, ?_, ?_, ?_, ?_⟩
  · rw [hi]; simp [Index.set, DBFile.Offset]
  · intro q hq
    rw [hi]; simp [Index.set, hq]
  · unfold DBFile.Read DBFile.Offset
    rw [hb]
    exact readAt_start hdr _ [] _ (newEntry_size_pos hdr key value .PUT hk)
  · unfold DBFile.Offset
    rw [hb, logSize_append]
    simp [logSize, Block.size]

theorem Put_postcondition_witness :
    (Put 10 (oneKeyStore []) [97] [50]).1.dbFile.blocks
        = (oneKeyStore []).dbFile.blocks ++ [.entry (NewEntry [97] [50] .PUT)]
      ∧ (Put 10 (oneKeyStore []) [97] [50]).1.indexes
          = (oneKeyStore []).indexes.set [97] ((oneKeyStore []).dbFile.Offset 10)
      ∧ (oneKeyStore []).dbFile.Offset 10 = logSize 10 (oneKeyStore []).dbFile.blocks
      ∧ (Put 10 (oneKeyStore []) [97] [50]).1.indexes [97]
          = some ((oneKeyStore []).dbFile.Offset 10)
      ∧ (∀ q, q ≠ [97] →
          (Put 10 (oneKeyStore []) [97] [50]).1.indexes q = (oneKeyStore []).indexes q)
      ∧ (Put 10 (oneKeyStore []) [97] [50]).1.dbFile.Read 10 ((oneKeyStore []).dbFile.Offset 10)
          = .ok (NewEntry [97] [50] .PUT)
      ∧ (Put 10 (oneKeyStore []) [97] [50]).1.dbFile.Offset 10
          = (oneKeyStore []).dbFile.Offset 10 + (NewEntry [97] [50] .PUT).GetSize 10 :=
  Put_postcondition 10 (oneKeyStore []) [97] [50] (by decide) (by decide)

/-- C17 (read failures propagate): when the read at the indexed offset of a
non-empty key fails with an error other than end-of-data, `Get` returns this
error and a nil value. -/
theorem Get_read_failure (hdr : Nat) (db : DiskDB) (key : Bytes) (off : Nat)
    (e : Option Entry) (err : Error) (hk : key ≠ [])
    (hin : db.indexes key = some off) (hread : db.dbFile.Read hdr off = .fail e err)
    (herr : err ≠ .EOF) :
    Get hdr db key = ([], some err) := by
  have hl := length_ne_zero hk
  simp [Get, hl, hin, hread, herr]

theorem Get_read_failure_witness :
    junkStore.indexes [97] = some 0
      ∧ junkStore.dbFile.Read 10 0 = .fail none .ErrDecode
      ∧ Get 10 junkStore [97] = ([], some .ErrDecode) :=
  ⟨by decide, by decide,
    Get_read_failure 10 junkStore [97] 0 none .ErrDecode (by decide) (by decide) (by decide)
      (by decide)⟩

/-- C18 (end-of-data in `Get`): when the read at the indexed offset of a
non-empty key reports end-of-data, `Get` returns `io.EOF` as its error, with
the value of the entry the read returned, or the nil value when it returned
none. -/
theorem Get_end_of_data (hdr : Nat) (db : DiskDB) (key : Bytes) (off : Nat)
    (e : Option Entry) (hk : key ≠ [])
    (hin : db.indexes key = some off) (hread : db.dbFile.Read hdr off = .fail e .EOF) :
    Get hdr db key = ((e.map fun x => x.Value).getD [], some .EOF)
      ∧ (Get hdr db key).2 ≠ none := by
  have hl := length_ne_zero hk
  have h : Get hdr db key = ((e.map fun x => x.Value).getD [], some .EOF) := by
    cases e <;> simp [Get, hl, hin, hread]
  exact ⟨h, by rw [h]; simp⟩

theorem Get_end_of_data_witness :
    (Put 10 (freshStore [some (.ErrOther 28)]) [97] [49]).1.indexes [97] = some 0
      ∧ (Put 10 (freshStore [some (.ErrOther 28)]) [97] [49]).1.dbFile.Read 10 0
          = .fail none .EOF
      ∧ Get 10 (Put 10 (freshStore [some (.ErrOther 28)]) [97] [49]).1 [97]
          = ((Option.map (fun x => x.Value) (none : Option Entry)).getD [], some .EOF)
      ∧ (Get 10 (Put 10 (freshStore [some (.ErrOther 28)]) [97] [49]).1 [97]).2 ≠ none :=
  ⟨by decide, by decide,
    Get_end_of_data 10 _ [97] 0 none (by decide) (by decide) (by decide)⟩

/-! ### Frame of an append -/

/-- Appending to the log and keeping the entry of a key keeps what the index
invariant protects: the records at the indexed offsets and `Get` of the key. -/
theorem frame_of_append (hdr : Nat) (db db2 : DiskDB) (cs : List Block) (k2 : Bytes)
    (hinv : IndexInv hdr db) (hb : db2.dbFile.blocks = db.dbFile.blocks ++ cs)
    (hi : db2.indexes k2 = db.indexes k2) :
    (∀ q off, db.indexes q = some off → db2.dbFile.Read hdr off = db.dbFile.Read hdr off)
      ∧ Get hdr db2 k2 = Get hdr db k2 := by
  have hread : ∀ q off, db.indexes q = some off →
      db2.dbFile.Read hdr off = db.dbFile.Read hdr off := by
    intro q off hq
    obtain ⟨e, he, _, _⟩ := hinv q off hq
    rw [he]
    unfold DBFile.Read at he ⊢
    rw [hb]
    exact readAt_append_ok hdr _ cs off e he
  refine ⟨hread, ?_⟩
  unfold Get
  by_cases hl : k2.length = 0
  · simp [hl]
  · simp only [hl, if_false, hi]
    cases hq : db.indexes k2 with
    | none => rfl
    | some off => simp only [hread k2 off hq]

theorem oneKeyStore_inv : IndexInv 10 (oneKeyStore []) := by
  intro k off h
  by_cases hk : k = [97]
  · subst hk
    have hoff : off = 0 := by
      simp [oneKeyStore, Index.set] at h
      exact h.symm
    subst hoff
    exact ⟨NewEntry [97] [49] .PUT, by decide, rfl, rfl⟩
  · simp [oneKeyStore, Index.set, Index.empty, hk] at h

/-- C15 (other keys are untouched): in a state that satisfies the index
invariant, a `Put` or a `Del` of a non-empty key `k` that returns no error
leaves the index entry of every other key `k2` as it was, leaves the record
read at every offset the index held as it was, and so leaves `Get k2` as it
was. -/
theorem other_keys_untouched (hdr : Nat) (db : DiskDB) (k k2 v : Bytes)
    (hinv : IndexInv hdr db) (hk : k ≠ []) (hne : k2 ≠ k) :
    ((Put hdr db k v).2 = none →
        (Put hdr db k v).1.indexes k2 = db.indexes k2
        ∧ (∀ q off, db.indexes q = some off →
            (Put hdr db k v).1.dbFile.Read hdr off = db.dbFile.Read hdr off)
        ∧ Get hdr (Put hdr db k v).1 k2 = Get hdr db k2)
      ∧ ((Del db k).2 = none →
        (Del db k).1.indexes k2 = db.indexes k2
        ∧ (∀ q off, db.indexes q = some off →
            (Del db k).1.dbFile.Read hdr off = db.dbFile.Read hdr off)
        ∧ Get hdr (Del db k).1 k2 = Get hdr db k2) := by
  constructor
  · intro hput
    obtain ⟨hb, hi⟩ := Put_ok_state hdr db k v hk hput
    have hidx : (Put hdr db k v).1.indexes k2 = db.indexes k2 := by
      rw [hi]; simp [Index.set, hne]
    obtain ⟨hr, hg⟩ := frame_of_append hdr db _ _ k2 hinv hb hidx
    exact ⟨hidx, hr, hg⟩
  · intro hdel
    cases hin : db.indexes k with
    | none =>
      have h : Del db k = (db, none) := by simp [Del, length_ne_zero hk, hin]
      rw [h]
      exact ⟨rfl, fun _ _ _ => rfl, rfl⟩
    | some off =>
      obtain ⟨hb, hi⟩ := Del_ok_state db k off hk hin hdel
      have hidx : (Del db k).1.indexes k2 = db.indexes k2 := by
        rw [hi]; simp [Index.delete, hne]
      obtain ⟨hr, hg⟩ := frame_of_append hdr db _ _ k2 hinv hb hidx
      exact ⟨hidx, hr, hg⟩

theorem other_keys_untouched_witness :
    IndexInv 10 (oneKeyStore [])
      ∧ (Put 10 (oneKeyStore []) [98] [50]).2 = none
      ∧ Get 10 (Put 10 (oneKeyStore []) [98] [50]).1 [97] = Get 10 (oneKeyStore []) [97]
      ∧ (Del (oneKeyStore []) [98]).2 = none
      ∧ Get 10 (Del (oneKeyStore []) [98]).1 [97] = Get 10 (oneKeyStore []) [97] :=
  ⟨oneKeyStore_inv, by decide,
    ((other_keys_untouched 10 (oneKeyStore []) [98] [97] [50] oneKeyStore_inv (by decide)
      (by decide)).1 (by decide)).2.2,
    by decide,
    ((other_keys_untouched 10 (oneKeyStore []) [98] [97] [50] oneKeyStore_inv (by decide)
      (by decide)).2 (by decide)).2.2⟩

/-! ### Termination of the recovery scan -/

theorem scanVisits_fail (hdr : Nat) (f : DBFile) (fuel off : Nat)
    (e : Option Entry) (err : Error) (h : f.Read hdr off = .fail e err) :
    scanVisits hdr f (fuel + 1) off = some [] := by
  simp [scanVisits, h]

theorem scanVisits_ok (hdr : Nat) (f : DBFile) (fuel off : Nat) (e : Entry)
    (h : f.Read hdr off = .ok e) :
    scanVisits hdr f (fuel + 1) off
      = (scanVisits hdr f fuel (off + e.GetSize hdr)).map fun vs => (off, e) :: vs := by
  simp [scanVisits, h]

/-- The index the loop computes is the fold of its trace. -/
theorem scan_eq_fold (hdr : Nat) (f : DBFile) (fuel : Nat) :
    ∀ (off : Nat) (m : Index),
      scan hdr f fuel off m
        = (scanVisits hdr f fuel off).map
            fun vs => vs.foldl (fun acc v => applyEntry acc v.2 v.1) m := by
  induction fuel with
  | zero => intro off m; simp [scan, scanVisits]
  | succ fuel ih =>
    intro off m
    cases hr : f.Read hdr off with
    | fail e err =>
      rw [scan_fail hdr f fuel off m e err hr, scanVisits_fail hdr f fuel off e err hr]
      rfl
    | ok e =>
      rw [scan_ok hdr f fuel off m e hr, scanVisits_ok hdr f fuel off e hr, ih]
      cases scanVisits hdr f fuel (off + e.GetSize hdr) <;> simp

theorem scanVisits_stretch (hdr : Nat) (f : DBFile) (rest : List Block) :
    ∀ (pre post : List Block) (fuel : Nat),
      WellFormed hdr rest → f.blocks = pre ++ rest ++ post →
      scanVisits hdr f (rest.length + fuel) (logSize hdr pre)
        = (scanVisits hdr f fuel (logSize hdr (pre ++ rest))).map
            fun vs => records hdr rest (logSize hdr pre) ++ vs := by
  induction rest with
  | nil =>
    intro pre post fuel _ _
    cases h : scanVisits hdr f fuel (logSize hdr pre) <;> simp [records, h]
  | cons b rest ih =>
    intro pre post fuel hwf hblocks
    obtain ⟨hb, hrest⟩ := (wellFormed_cons hdr b rest).mp hwf
    obtain ⟨e, rfl, hpos⟩ := valid_entry hdr b hb
    have hread : f.Read hdr (logSize hdr pre) = .ok e := by
      unfold DBFile.Read
      rw [hblocks, List.append_assoc, List.cons_append]
      exact readAt_start hdr pre (rest ++ post) (.entry e) hpos
    have hlen : (Block.entry e :: rest).length + fuel = (rest.length + fuel) + 1 := by
      simp only [List.length_cons]; omega
    rw [hlen, scanVisits_ok hdr f _ _ e hread]
    have hpre : logSize hdr (pre ++ [Block.entry e]) = logSize hdr pre + e.GetSize hdr := by
      simp [logSize_append, logSize, Block.size]
    have hblocks2 : f.blocks = (pre ++ [Block.entry e]) ++ rest ++ post := by
      rw [hblocks]; simp
    have h := ih (pre ++ [Block.entry e]) post fuel hrest hblocks2
    rw [hpre] at h
    rw [h]
    have happ : pre ++ [Block.entry e] ++ rest = pre ++ Block.entry e :: rest := by simp
    rw [happ]
    cases scanVisits hdr f fuel (logSize hdr (pre ++ Block.entry e :: rest)) <;>
      simp [records]

theorem records_entries (hdr : Nat) (bs : List Block) :
    ∀ off, WellFormed hdr bs →
      (records hdr bs off).map (fun v => Block.entry v.2) = bs := by
  induction bs with
  | nil => intro off _; rfl
  | cons b bs ih =>
    intro off hwf
    obtain ⟨hb, hbs⟩ := (wellFormed_cons hdr b bs).mp hwf
    obtain ⟨e, rfl, _⟩ := valid_entry hdr b hb
    simp [records, ih _ hbs]

theorem records_lower (hdr : Nat) (bs : List Block) :
    ∀ off, ∀ v ∈ records hdr bs off, off ≤ v.1 := by
  induction bs with
  | nil => intro off v hv; simp [records] at hv
  | cons b bs ih =>
    intro off v hv
    cases b with
    | entry e =>
      simp only [records, List.mem_cons] at hv
      rcases hv with rfl | hv
      · exact Nat.le_refl _
      · have := ih _ v hv; omega
    | junk n =>
      simp only [records] at hv
      have := ih _ v hv; omega

theorem records_increasing (hdr : Nat) (bs : List Block) :
    ∀ off, WellFormed hdr bs →
      List.Pairwise (fun a b => a.1 < b.1) (records hdr bs off) := by
  induction bs with
  | nil => intro off _; simp [records]
  | cons b bs ih =>
    intro off hwf
    obtain ⟨hb, hbs⟩ := (wellFormed_cons hdr b bs).mp hwf
    obtain ⟨e, rfl, hpos⟩ := valid_entry hdr b hb
    simp only [records, List.pairwise_cons]
    refine ⟨?_, ih _ hbs⟩
    intro v hv
    have := records_lower hdr bs _ v hv
    show off < v.1
    omega

/-- C19 (recovery terminates): on a log made of records that all have a
positive size, the loop of `loadIndexesFromFile` ends within one iteration more
than there are records; its successful reads are exactly the records of the
log, each once, in file order, at strictly increasing cursors; the read at the
length of the log reports end-of-data; and the index it returns is the fold of
these reads. -/
theorem recovery_terminates (hdr fuel : Nat) (db : DiskDB)
    (hwf : WellFormed hdr db.dbFile.blocks) (hfuel : db.dbFile.blocks.length < fuel) :
    (∃ db2, loadIndexesFromFile hdr fuel db = some db2)
      ∧ scanVisits hdr db.dbFile fuel 0 = some (records hdr db.dbFile.blocks 0)
      ∧ (records hdr db.dbFile.blocks 0).map (fun v => Block.entry v.2) = db.dbFile.blocks
      ∧ List.Pairwise (fun a b => a.1 < b.1) (records hdr db.dbFile.blocks 0)
      ∧ db.dbFile.Read hdr (logSize hdr db.dbFile.blocks) = .fail none .EOF
      ∧ scan hdr db.dbFile fuel 0 db.indexes
          = some ((records hdr db.dbFile.blocks 0).foldl
              (fun acc v => applyEntry acc v.2 v.1) db.indexes) := by
  have hvisits : scanVisits hdr db.dbFile fuel 0 = some (records hdr db.dbFile.blocks 0) := by
    obtain ⟨k, rfl⟩ : ∃ k, fuel = db.dbFile.blocks.length + (k + 1) :=
      ⟨fuel - db.dbFile.blocks.length - 1, by omega⟩
    have h := scanVisits_stretch hdr db.dbFile db.dbFile.blocks [] [] (k + 1) hwf (by simp)
    simp only [logSize, List.nil_append] at h
    rw [h, scanVisits_fail hdr db.dbFile k _ none .EOF (readAt_end hdr db.dbFile.blocks)]
    simp
  refine ⟨⟨_, load_of_wellFormed hdr fuel db hwf hfuel⟩, hvisits,
    records_entries hdr _ 0 hwf, records_increasing hdr _ 0 hwf,
    readAt_end hdr db.dbFile.blocks, ?_⟩
  rw [scan_eq_fold, hvisits]
  rfl

theorem recovery_terminates_witness :
    (∃ db2, loadIndexesFromFile 10 5
        { indexes := Index.empty, dbFile := { blocks := exampleLog, faults := [] },
          dirPath := "d" } = some db2)
      ∧ scanVisits 10 { blocks := exampleLog, faults := [] } 5 0
          = some [(0, NewEntry [97] [49] .PUT), (12, NewEntry [98] [50] .PUT),
                  (24, NewEntry [97] [] .DEL), (35, NewEntry [97] [51] .PUT)] :=
  ⟨(recovery_terminates 10 5
      { indexes := Index.empty, dbFile := { blocks := exampleLog, faults := [] },
        dirPath := "d" } (by decide) (by decide)).1,
    by decide⟩

end diskdb
